import Mathlib

/-!
Verification of `cpputils` LeakCheck (src/cpputils/leakcheck.{h,cpp}).

A shallow embedding of the `LeakCheck` instance-tracking registry.

The C++ state is `std::map<std::string, LeakCheck::Entry> s_stats`, an
ordered map from type name to a per-type counter record.  We model it as
an association list `List (String × Entry)` kept sorted by key, exactly the
iteration order of `std::map`.  `std::map::operator[]` (which
default-inserts a zero entry when the key is absent) is modelled by
`mapIndex`.  Each member function of `LeakCheck` is translated clause by
clause from `leakcheck.cpp` / `leakcheck.h`:

* `LeakCheck.update`         ← `LeakCheck::update` (leakcheck.cpp:12-32)
* `LeakCheck.print_leaks`    ← `LeakCheck::print_leaks` (leakcheck.cpp:34-60),
  returning the structured data it prints: the `(type, count)` lines and the
  grand total `leaks`
* `LeakCheck.print_stats`    ← `LeakCheck::print_stats` (leakcheck.cpp:62-74),
  returning the `(type, count, total, max)` rows it prints
* `LeakCheck.has_leaks`      ← `LeakCheck::has_leaks` (leakcheck.cpp:76-87)
* `LeakCheck.instance_count` ← `LeakCheck::instance_count` (leakcheck.h:74-79);
  since `s_stats[key]` may insert, it returns the new state as well

The two `assert`s in `update` are modelled by the predicate `assertsOk`.
The mutex usage of each member function is modelled by its trace of
lock/unlock/map-access events (`updateTrace`, `hasLeaksTrace`, ...).
-/

namespace LeakCheck

/-- Model of `LeakCheck::Entry` (leakcheck.h:85-90): per-type counters, all
default-initialized to 0.  `count` is the number of live instances,
`max` the historical maximum of `count`, `total` the cumulative number
of increments. -/
structure Entry where
  count : Int
  max : Int
  total : Int
deriving DecidableEq, Repr

/-- The default-initialized entry (`long count = 0; long max = 0; long total = 0`). -/
def Entry.init : Entry := ⟨0, 0, 0⟩

/-- The registry state: `std::map<std::string, Entry> s_stats`, modelled as an
association list sorted by key (the map's iteration order). -/
abbrev Registry := List (String × Entry)

/-- Sortedness invariant of `std::map`: keys strictly increasing. -/
def SortedKeys (s : Registry) : Prop := List.Pairwise (fun a b => a.1 < b.1) s

/-- Key lookup in the map (`std::map::find` semantics): the entry stored at
`key`, if present. -/
def lookupEntry : Registry → String → Option Entry
  | [], _ => none
  | (k, e) :: rest, key => if key = k then some e else lookupEntry rest key

/-- The entry observed for `key`: the stored one, or the default-initialized
entry if the key is absent. -/
def findEntry (s : Registry) (key : String) : Entry :=
  (lookupEntry s key).getD Entry.init

/-- Store `v` at `key`, inserting at the sorted position if `key` is absent
and overwriting if present (`std::map` insertion/assignment). -/
def setEntry : Registry → String → Entry → Registry
  | [], key, v => [(key, v)]
  | (k, e) :: rest, key, v =>
    if key < k then (key, v) :: (k, e) :: rest
    else if key = k then (key, v) :: rest
    else (k, e) :: setEntry rest key v

/-- Model of `std::map::operator[]`: return the entry at `key`, default-inserting a
zero entry first when `key` is absent.  Returns the observed entry and the
possibly-grown map. -/
def mapIndex (s : Registry) (key : String) : Entry × Registry :=
  match lookupEntry s key with
  | some e => (e, s)
  | none => (Entry.init, setEntry s key Entry.init)

/-- The effect of `LeakCheck::update` on the entry of the named type
(leakcheck.cpp:20-31): `e.count += increment;
if (increment > 0) e.total += increment; if (e.count > e.max) e.max = e.count;`. -/
def stepEntry (e : Entry) (increment : Int) : Entry :=
  let e1 : Entry := { e with count := e.count + increment }
  let e2 : Entry := if increment > 0 then { e1 with total := e1.total + increment } else e1
  if e2.count > e2.max then { e2 with max := e2.count } else e2

/-- Model of `LeakCheck::update(typeName, increment)` (leakcheck.cpp:12-32):
`Entry &e = s_stats[typeName];` followed by the counter updates of
`stepEntry`, written back into the map. -/
def update (s : Registry) (typeName : String) (increment : Int) : Registry :=
  let p := mapIndex s typeName
  setEntry p.2 typeName (stepEntry p.1 increment)

/-- The two `assert`s of `LeakCheck::update` (leakcheck.cpp:14 and
leakcheck.cpp:21), evaluated at the state the call sees:
`increment == 1 || increment == -1`, and `e.count >= 0` after the addition. -/
def updateAsserts (s : Registry) (typeName : String) (increment : Int) : Prop :=
  (increment = 1 ∨ increment = -1) ∧ 0 ≤ (findEntry s typeName).count + increment

/-- Model of `LeakCheck::has_leaks` (leakcheck.cpp:76-87): scans the map and returns
`true` at the first entry with `count > 0`, else `false`. -/
def has_leaks (s : Registry) : Bool :=
  s.any (fun kv => kv.2.count > 0)

/-- Model of `LeakCheck::print_leaks` (leakcheck.cpp:34-60), as the structured data it
prints: the loop appends a `(type, count)` line and adds `count` to `leaks`
for each entry with `count > 0`.  Returns (lines, leaks). -/
def print_leaks (s : Registry) : List (String × Int) × Int :=
  s.foldl
    (fun acc kv =>
      if kv.2.count > 0 then (acc.1 ++ [(kv.1, kv.2.count)], acc.2 + kv.2.count) else acc)
    ([], 0)

/-- Model of `LeakCheck::print_stats` (leakcheck.cpp:62-74), as the structured rows it
prints: `(type, count, total, max)` for every entry of the map, in map
order. -/
def print_stats (s : Registry) : List (String × Int × Int × Int) :=
  s.map (fun kv => (kv.1, kv.2.count, kv.2.total, kv.2.max))

/-- Model of `LeakCheck::instance_count<T>` (leakcheck.h:74-79):
`return s_stats[typeid(T).name()].count;`.  Because `operator[]`
default-inserts, the call can grow the map; the model returns the read
value together with the resulting map. -/
def instance_count (s : Registry) (typeName : String) : Int × Registry :=
  let p := mapIndex s typeName
  (p.1.count, p.2)

/-- Run a sequence of `update` calls, each a `(typeName, increment)` pair,
starting from a given registry state. -/
def runFrom (s : Registry) (calls : List (String × Int)) : Registry :=
  calls.foldl (fun s c => update s c.1 c.2) s

/-- Run a sequence of `update` calls from the initial (empty) registry. -/
def runCalls (calls : List (String × Int)) : Registry :=
  runFrom [] calls

/-- The increments of the calls of a sequence that concern type `t`, in
order. -/
def deltasFor (calls : List (String × Int)) (t : String) : List Int :=
  (calls.filter (fun c => c.1 = t)).map Prod.snd

/-- Both asserts of `update` hold at every call of the sequence, run from
state `s`. -/
def assertsOk : Registry → List (String × Int) → Prop
  | _, [] => True
  | s, c :: rest => updateAsserts s c.1 c.2 ∧ assertsOk (update s c.1 c.2) rest

/-- Mutex / shared-map events occurring in the body of a `LeakCheck` member
function, in source order.  `lockAcq`/`lockRel` are the construction and
destruction of the `std::lock_guard`; `access` is a read or write of
`s_stats`. -/
inductive Action where
  | lockAcq
  | lockRel
  | access
deriving DecidableEq, Repr

/-- Event trace of `LeakCheck::update` (leakcheck.cpp:12-32): `lock_guard`
over the whole body, map access inside. -/
def updateTrace : List Action := [.lockAcq, .access, .lockRel]

/-- Event trace of `LeakCheck::print_leaks` (leakcheck.cpp:34-60): `lock_guard`
over the whole body, map iteration inside. -/
def printLeaksTrace : List Action := [.lockAcq, .access, .lockRel]

/-- Event trace of `LeakCheck::print_stats` (leakcheck.cpp:62-74): `lock_guard`
over the whole body, map iteration inside. -/
def printStatsTrace : List Action := [.lockAcq, .access, .lockRel]

/-- Event trace of `LeakCheck::instance_count` (leakcheck.h:74-79):
`lock_guard` over the whole body, map access inside. -/
def instanceCountTrace : List Action := [.lockAcq, .access, .lockRel]

/-- Event trace of `LeakCheck::has_leaks` (leakcheck.cpp:76-87): the body
iterates `s_stats` with no `lock_guard`. -/
def hasLeaksTrace : List Action := [.access]

/-- Whether every `access` of a trace happens while the mutex is held,
starting from hold-state `held`. -/
def lockedDuring : Bool → List Action → Bool
  | _, [] => true
  | _, Action.lockAcq :: r => lockedDuring true r
  | _, Action.lockRel :: r => lockedDuring false r
  | held, Action.access :: r => held && lockedDuring held r

/-- A member function acquires the process-wide mutex for the duration of its
map access: every `access` event of its trace occurs with the lock held. -/
def lockProtected (tr : List Action) : Bool :=
  lockedDuring false tr

end LeakCheck

/-! ## Basic map lemmas -/

namespace LeakCheck

theorem lookupEntry_setEntry_self (s : Registry) (k : String) (v : Entry) :
    lookupEntry (setEntry s k v) k = some v := by
  induction s with
  | nil => simp [setEntry, lookupEntry]
  | cons hd rest ih =>
    obtain ⟨k1, e1⟩ := hd
    by_cases hlt : k < k1
    · simp [setEntry, hlt, lookupEntry]
    · by_cases heq : k = k1
      · simp [setEntry, hlt, heq, lookupEntry]
      · simp [setEntry, hlt, heq, lookupEntry, ih]

theorem lookupEntry_setEntry_ne (s : Registry) (k k' : String) (v : Entry)
    (h : k' ≠ k) : lookupEntry (setEntry s k v) k' = lookupEntry s k' := by
  induction s with
  | nil => simp [setEntry, lookupEntry, h]
  | cons hd rest ih =>
    obtain ⟨k1, e1⟩ := hd
    by_cases hlt : k < k1
    · simp [setEntry, hlt, lookupEntry, h]
    · by_cases heq : k = k1
      · subst heq
        simp [setEntry, hlt, lookupEntry, h]
      · by_cases h1 : k' = k1
        · simp [setEntry, hlt, heq, lookupEntry, h1]
        · simp [setEntry, hlt, heq, lookupEntry, h1, ih]

theorem setEntry_setEntry_same (s : Registry) (k : String) (v w : Entry) :
    setEntry (setEntry s k v) k w = setEntry s k w := by
  induction s with
  | nil => simp [setEntry]
  | cons hd rest ih =>
    obtain ⟨k1, e1⟩ := hd
    by_cases hlt : k < k1
    · simp [setEntry, hlt, lt_irrefl]
    · by_cases heq : k = k1
      · subst heq
        simp [setEntry, hlt, lt_irrefl]
      · simp [setEntry, hlt, heq, ih]

theorem findEntry_setEntry_self (s : Registry) (k : String) (v : Entry) :
    findEntry (setEntry s k v) k = v := by
  simp [findEntry, lookupEntry_setEntry_self]

theorem findEntry_setEntry_ne (s : Registry) (k k' : String) (v : Entry)
    (h : k' ≠ k) : findEntry (setEntry s k v) k' = findEntry s k' := by
  simp [findEntry, lookupEntry_setEntry_ne _ _ _ _ h]

/-- Unfolding `update`: the call stores the stepped entry of its type. -/
theorem update_eq (s : Registry) (t : String) (d : Int) :
    update s t d = setEntry s t (stepEntry (findEntry s t) d) := by
  unfold update mapIndex findEntry
  cases h : lookupEntry s t with
  | some e => simp [h]
  | none => simp [h, setEntry_setEntry_same]

theorem findEntry_update_self (s : Registry) (t : String) (d : Int) :
    findEntry (update s t d) t = stepEntry (findEntry s t) d := by
  rw [update_eq, findEntry_setEntry_self]

theorem findEntry_update_ne (s : Registry) (t t' : String) (d : Int)
    (h : t' ≠ t) : findEntry (update s t d) t' = findEntry s t' := by
  rw [update_eq, findEntry_setEntry_ne _ _ _ _ h]

/-! ## Entry-level step lemmas -/

theorem stepEntry_count (e : Entry) (d : Int) :
    (stepEntry e d).count = e.count + d := by
  unfold stepEntry
  by_cases hd : d > 0 <;> by_cases hm : e.count + d > e.max <;> simp [hd, hm]

theorem stepEntry_max (e : Entry) (d : Int) :
    (stepEntry e d).max = max e.max (e.count + d) := by
  unfold stepEntry
  by_cases hd : d > 0 <;> by_cases hm : e.count + d > e.max <;>
    simp [hd, hm] <;> omega

theorem stepEntry_total (e : Entry) (d : Int) :
    (stepEntry e d).total = e.total + (if 0 < d then d else 0) := by
  unfold stepEntry
  by_cases hd : d > 0 <;> by_cases hm : e.count + d > e.max <;> simp [hd, hm]

/-! ## Projection of a call sequence onto one type -/

theorem deltasFor_nil (t : String) : deltasFor [] t = [] := rfl

theorem deltasFor_cons (c : String × Int) (rest : List (String × Int)) (t : String) :
    deltasFor (c :: rest) t =
      if c.1 = t then c.2 :: deltasFor rest t else deltasFor rest t := by
  by_cases h : c.1 = t <;> simp [deltasFor, List.filter_cons, h]

/-- A run of `update` calls acts on the entry of each type as the fold of
`stepEntry` over the increments addressed to that type. -/
theorem findEntry_runFrom (calls : List (String × Int)) (s : Registry) (t : String) :
    findEntry (runFrom s calls) t = (deltasFor calls t).foldl stepEntry (findEntry s t) := by
  induction calls generalizing s with
  | nil => rfl
  | cons c rest ih =>
    have hrun : runFrom s (c :: rest) = runFrom (update s c.1 c.2) rest := rfl
    rw [hrun, ih, deltasFor_cons]
    by_cases h : c.1 = t
    · subst h
      rw [findEntry_update_self]
      simp
    · rw [findEntry_update_ne _ _ _ _ (fun hh => h hh.symm)]
      simp [h]

theorem findEntry_runCalls (calls : List (String × Int)) (t : String) :
    findEntry (runCalls calls) t = (deltasFor calls t).foldl stepEntry Entry.init := by
  rw [runCalls, findEntry_runFrom]
  rfl

end LeakCheck

/-! ## Folding `stepEntry` over a list of increments -/

namespace LeakCheck

theorem foldl_stepEntry_count (ds : List Int) (e : Entry) :
    (ds.foldl stepEntry e).count = e.count + ds.sum := by
  induction ds generalizing e with
  | nil => simp
  | cons d ds ih =>
    simp only [List.foldl_cons, List.sum_cons, ih, stepEntry_count]
    ring

theorem foldl_stepEntry_total (ds : List Int) (e : Entry)
    (h : ∀ d ∈ ds, d = 1 ∨ d = -1) :
    (ds.foldl stepEntry e).total = e.total + (ds.count 1 : Int) := by
  induction ds generalizing e with
  | nil => simp
  | cons d ds ih =>
    have hd := h d (by simp)
    have hrest : ∀ d ∈ ds, d = 1 ∨ d = -1 := fun x hx => h x (by simp [hx])
    simp only [List.foldl_cons, ih _ hrest, stepEntry_total]
    rcases hd with h1 | h1 <;> subst h1
    · simp [List.count_cons]
      ring
    · simp [List.count_cons]

theorem sum_of_pm_ones (ds : List Int) (h : ∀ d ∈ ds, d = 1 ∨ d = -1) :
    ds.sum = (ds.count 1 : Int) - (ds.count (-1) : Int) := by
  induction ds with
  | nil => simp
  | cons d ds ih =>
    have hd := h d (by simp)
    have hrest : ∀ x ∈ ds, x = 1 ∨ x = -1 := fun x hx => h x (by simp [hx])
    rcases hd with h1 | h1 <;> subst h1 <;>
      · simp [List.count_cons, ih hrest]
        ring

/-- The running maximum of the live count along a list of increments:
`c` is the current count, `m` the maximum seen so far. -/
def runningMax (c m : Int) : List Int → Int
  | [] => m
  | d :: ds => runningMax (c + d) (max m (c + d)) ds

theorem foldl_stepEntry_max (ds : List Int) (e : Entry) :
    (ds.foldl stepEntry e).max = runningMax e.count e.max ds := by
  induction ds generalizing e with
  | nil => simp [runningMax]
  | cons d ds ih =>
    simp only [List.foldl_cons, runningMax, ih, stepEntry_count, stepEntry_max]

theorem runningMax_ge_m (ds : List Int) (c m : Int) : m ≤ runningMax c m ds := by
  induction ds generalizing c m with
  | nil => simp [runningMax]
  | cons d ds ih =>
    calc m ≤ max m (c + d) := le_max_left _ _
    _ ≤ runningMax (c + d) (max m (c + d)) ds := ih _ _
    _ = runningMax c m (d :: ds) := rfl

/-- Every live value reached after a prefix is bounded by the running
maximum, provided the current count is already bounded by it. -/
theorem runningMax_ge_prefix (ds : List Int) (c m : Int) (hc : c ≤ m) (n : ℕ) :
    c + (ds.take n).sum ≤ runningMax c m ds := by
  induction ds generalizing c m n with
  | nil => simpa using le_trans hc (runningMax_ge_m [] c m)
  | cons d ds ih =>
    show c + ((d :: ds).take n).sum ≤ runningMax (c + d) (max m (c + d)) ds
    cases n with
    | zero =>
      simpa using le_trans hc (le_trans (le_max_left m (c + d))
        (runningMax_ge_m ds (c + d) (max m (c + d))))
    | succ k =>
      calc c + ((d :: ds).take (k + 1)).sum = (c + d) + (ds.take k).sum := by
            simp [List.take_cons]; ring
      _ ≤ runningMax (c + d) (max m (c + d)) ds := ih _ _ (le_max_right m (c + d)) k

/-- The running maximum is attained: it is either the initial maximum `m`, or
the live value after some nonempty prefix. -/
theorem runningMax_attained (ds : List Int) (c m : Int) :
    runningMax c m ds = m ∨
      ∃ n, 0 < n ∧ n ≤ ds.length ∧ runningMax c m ds = c + (ds.take n).sum := by
  induction ds generalizing c m with
  | nil => left; rfl
  | cons d ds ih =>
    have step : runningMax c m (d :: ds) = runningMax (c + d) (max m (c + d)) ds := rfl
    rcases ih (c + d) (max m (c + d)) with h | ⟨n, hn0, hnlen, hval⟩
    · rcases max_cases m (c + d) with ⟨hmax, _⟩ | ⟨hmax, _⟩
      · left; rw [step, h, hmax]
      · right
        refine ⟨1, one_pos, by simp, ?_⟩
        rw [step, h, hmax]
        simp
    · right
      refine ⟨n + 1, by omega, by simp; omega, ?_⟩
      rw [step, hval]
      simp [List.take_cons]
      ring

/-- Lemma: `stepEntry` unconditionally re-establishes `count ≤ max`. -/
theorem stepEntry_count_le_max (e : Entry) (d : Int) :
    (stepEntry e d).count ≤ (stepEntry e d).max := by
  rw [stepEntry_count, stepEntry_max]
  exact le_max_right _ _

theorem foldl_stepEntry_count_le_max (ds : List Int) (e : Entry)
    (h : e.count ≤ e.max) : (ds.foldl stepEntry e).count ≤ (ds.foldl stepEntry e).max := by
  induction ds generalizing e with
  | nil => exact h
  | cons d ds ih => exact ih (stepEntry e d) (stepEntry_count_le_max e d)

end LeakCheck

/-! ## Sortedness and membership -/

namespace LeakCheck

theorem mem_setEntry {s : Registry} {k : String} {v : Entry} {x : String × Entry}
    (h : x ∈ setEntry s k v) : x = (k, v) ∨ x ∈ s := by
  induction s with
  | nil => simpa [setEntry] using h
  | cons hd rest ih =>
    obtain ⟨k1, e1⟩ := hd
    by_cases hlt : k < k1
    · simp only [setEntry, if_pos hlt] at h
      rcases List.mem_cons.mp h with h | h
      · exact Or.inl h
      · exact Or.inr h
    · by_cases heq : k = k1
      · simp only [setEntry, if_neg hlt, if_pos heq] at h
        rcases List.mem_cons.mp h with h | h
        · exact Or.inl h
        · exact Or.inr (List.mem_cons_of_mem _ h)
      · simp only [setEntry, if_neg hlt, if_neg heq] at h
        rcases List.mem_cons.mp h with h | h
        · exact Or.inr (by simp [h])
        · rcases ih h with h2 | h2
          · exact Or.inl h2
          · exact Or.inr (List.mem_cons_of_mem _ h2)

theorem sortedKeys_setEntry (s : Registry) (k : String) (v : Entry)
    (h : SortedKeys s) : SortedKeys (setEntry s k v) := by
  induction s with
  | nil => simp [setEntry, SortedKeys]
  | cons hd rest ih =>
    obtain ⟨k1, e1⟩ := hd
    rw [SortedKeys, List.pairwise_cons] at h
    obtain ⟨h1, h2⟩ := h
    by_cases hlt : k < k1
    · rw [SortedKeys]
      simp only [setEntry, if_pos hlt]
      rw [List.pairwise_cons]
      constructor
      · intro x hx
        rcases List.mem_cons.mp hx with hx | hx
        · subst hx; exact hlt
        · exact lt_trans hlt (h1 x hx)
      · rw [List.pairwise_cons]
        exact ⟨h1, h2⟩
    · by_cases heq : k = k1
      · rw [SortedKeys]
        simp only [setEntry, if_neg hlt, if_pos heq]
        rw [List.pairwise_cons]
        refine ⟨?_, h2⟩
        intro x hx
        rw [show (k, v).1 = k1 from heq]
        exact h1 x hx
      · have hgt : k1 < k := by
          rcases lt_trichotomy k k1 with h3 | h3 | h3
          · exact absurd h3 hlt
          · exact absurd h3 heq
          · exact h3
        rw [SortedKeys]
        simp only [setEntry, if_neg hlt, if_neg heq]
        rw [List.pairwise_cons]
        constructor
        · intro x hx
          rcases mem_setEntry hx with h3 | h3
          · subst h3; exact hgt
          · exact h1 x h3
        · exact ih h2

theorem sortedKeys_update (s : Registry) (t : String) (d : Int)
    (h : SortedKeys s) : SortedKeys (update s t d) := by
  rw [update_eq]
  exact sortedKeys_setEntry _ _ _ h

theorem sortedKeys_runFrom (calls : List (String × Int)) (s : Registry)
    (h : SortedKeys s) : SortedKeys (runFrom s calls) := by
  induction calls generalizing s with
  | nil => exact h
  | cons c rest ih => exact ih (update s c.1 c.2) (sortedKeys_update _ _ _ h)

theorem sortedKeys_runCalls (calls : List (String × Int)) :
    SortedKeys (runCalls calls) :=
  sortedKeys_runFrom calls [] (List.Pairwise.nil)

/-! ## Characterizing the reporting functions -/

theorem print_leaks_foldl (s : Registry) (acc : List (String × Int) × Int) :
    s.foldl
      (fun acc kv =>
        if kv.2.count > 0 then (acc.1 ++ [(kv.1, kv.2.count)], acc.2 + kv.2.count) else acc)
      acc =
    (acc.1 ++ (s.filter (fun kv => kv.2.count > 0)).map (fun kv => (kv.1, kv.2.count)),
     acc.2 + ((s.filter (fun kv => kv.2.count > 0)).map (fun kv => kv.2.count)).sum) := by
  induction s generalizing acc with
  | nil => simp
  | cons kv rest ih =>
    by_cases h : kv.2.count > 0
    · rw [List.foldl_cons, if_pos h, ih]
      simp [List.filter_cons, h, add_assoc]
    · rw [List.foldl_cons, if_neg h, ih]
      simp [List.filter_cons, h]

/-- Characterization of `print_leaks` as a filter/map/sum over the map's entries. -/
theorem print_leaks_spec (s : Registry) :
    print_leaks s =
      ((s.filter (fun kv => kv.2.count > 0)).map (fun kv => (kv.1, kv.2.count)),
       ((s.filter (fun kv => kv.2.count > 0)).map (fun kv => kv.2.count)).sum) := by
  rw [print_leaks, print_leaks_foldl]
  simp

theorem any_setEntry_absent (s : Registry) (k : String) (v : Entry)
    (p : String × Entry → Bool) (h : lookupEntry s k = none) :
    (setEntry s k v).any p = (p (k, v) || s.any p) := by
  induction s with
  | nil => simp [setEntry]
  | cons hd rest ih =>
    obtain ⟨k1, e1⟩ := hd
    by_cases heq : k = k1
    · rw [lookupEntry, if_pos heq] at h
      exact absurd h (by simp)
    · rw [lookupEntry, if_neg heq] at h
      by_cases hlt : k < k1
      · simp [setEntry, hlt, List.any_cons]
      · simp only [setEntry, if_neg hlt, if_neg heq, List.any_cons, ih h]
        cases p (k, v) <;> cases p (k1, e1) <;> simp

/-! ## `instance_count` -/

theorem instance_count_val (s : Registry) (t : String) :
    (instance_count s t).1 = (findEntry s t).count := by
  unfold instance_count mapIndex findEntry
  cases h : lookupEntry s t <;> simp [h]

theorem instance_count_state_present (s : Registry) (t : String)
    (h : lookupEntry s t ≠ none) : (instance_count s t).2 = s := by
  unfold instance_count mapIndex
  cases h2 : lookupEntry s t with
  | some e => simp [h2]
  | none => exact absurd h2 h

theorem instance_count_state_absent (s : Registry) (t : String)
    (h : lookupEntry s t = none) :
    (instance_count s t).2 = setEntry s t Entry.init := by
  unfold instance_count mapIndex
  simp [h]

/-- Lemma: `instance_count` never changes the entry observed for any type: the
inserted entry, when any, is the default one. -/
theorem findEntry_instance_count (s : Registry) (t t' : String) :
    findEntry (instance_count s t).2 t' = findEntry s t' := by
  cases h : lookupEntry s t with
  | some e => rw [instance_count_state_present s t (by simp [h])]
  | none =>
    rw [instance_count_state_absent s t h]
    by_cases heq : t' = t
    · subst heq
      rw [findEntry_setEntry_self, findEntry, h]
      rfl
    · exact findEntry_setEntry_ne _ _ _ _ heq

end LeakCheck

/-! ## Further shared lemmas -/

namespace LeakCheck

/-- The per-type invariants of the spec data model: `peak ≥ live` and
`totalCreated ≥ live`. -/
def EntryInv (e : Entry) : Prop := e.count ≤ e.max ∧ e.count ≤ e.total

theorem entryInv_init : EntryInv Entry.init := by
  constructor <;> simp [Entry.init]

theorem entryInv_step (e : Entry) (d : Int) (hd : d = 1 ∨ d = -1)
    (he : EntryInv e) : EntryInv (stepEntry e d) := by
  obtain ⟨h1, h2⟩ := he
  constructor
  · exact stepEntry_count_le_max e d
  · rw [stepEntry_count, stepEntry_total]
    rcases hd with rfl | rfl <;> simp <;> omega

theorem entryInv_foldl (ds : List Int) (e : Entry) (h : ∀ d ∈ ds, d = 1 ∨ d = -1)
    (he : EntryInv e) : EntryInv (ds.foldl stepEntry e) := by
  induction ds generalizing e with
  | nil => exact he
  | cons d ds ih =>
    exact ih (stepEntry e d) (fun x hx => h x (by simp [hx]))
      (entryInv_step e d (h d (by simp)) he)

theorem deltasFor_pm (calls : List (String × Int)) (t : String)
    (hc : ∀ c ∈ calls, c.2 = 1 ∨ c.2 = -1) :
    ∀ d ∈ deltasFor calls t, d = 1 ∨ d = -1 := by
  intro d hd
  rw [deltasFor] at hd
  obtain ⟨c, hcf, rfl⟩ := List.mem_map.mp hd
  exact hc c (List.mem_of_mem_filter hcf)

/-- A type absent from the sequence receives no increments. -/
theorem deltasFor_eq_nil_of_not_mem (calls : List (String × Int)) (t : String)
    (h : t ∉ calls.map Prod.fst) : deltasFor calls t = [] := by
  induction calls with
  | nil => rfl
  | cons c rest ih =>
    rw [deltasFor_cons, if_neg, ih]
    · intro hmem
      exact h (by simp [hmem])
    · intro heq
      exact h (by simp [heq.symm])

/-- Projecting a prefix of the call sequence onto a type yields a prefix of
the projection of the whole sequence. -/
theorem deltasFor_take (calls : List (String × Int)) (t : String) (n : ℕ) :
    ∃ m, m ≤ (deltasFor calls t).length ∧
      deltasFor (calls.take n) t = (deltasFor calls t).take m := by
  induction calls generalizing n with
  | nil => exact ⟨0, by simp, by simp [deltasFor_nil]⟩
  | cons c rest ih =>
    cases n with
    | zero => exact ⟨0, by simp, by simp [deltasFor_nil]⟩
    | succ k =>
      obtain ⟨m, hm, heq⟩ := ih k
      by_cases hct : c.1 = t
      · refine ⟨m + 1, ?_, ?_⟩
        · rw [deltasFor_cons, if_pos hct]
          simpa using hm
        · rw [List.take_succ_cons, deltasFor_cons, if_pos hct,
            deltasFor_cons, if_pos hct, List.take_succ_cons, heq]
      · refine ⟨m, le_trans hm (by rw [deltasFor_cons, if_neg hct]), ?_⟩
        rw [List.take_succ_cons, deltasFor_cons, if_neg hct,
          deltasFor_cons, if_neg hct, heq]

/-- Conversely, every prefix of the projection onto a type is realized by
some prefix of the call sequence. -/
theorem take_deltasFor (calls : List (String × Int)) (t : String) (m : ℕ) :
    ∃ n, n ≤ calls.length ∧
      deltasFor (calls.take n) t = (deltasFor calls t).take m := by
  induction calls generalizing m with
  | nil => exact ⟨0, le_refl _, by simp [deltasFor_nil]⟩
  | cons c rest ih =>
    cases m with
    | zero => exact ⟨0, by simp, by simp [deltasFor_nil]⟩
    | succ j =>
      by_cases hct : c.1 = t
      · obtain ⟨n, hn, heq⟩ := ih j
        refine ⟨n + 1, by simpa using hn, ?_⟩
        rw [List.take_succ_cons, deltasFor_cons, if_pos hct,
          deltasFor_cons, if_pos hct, List.take_succ_cons, heq]
      · obtain ⟨n, hn, heq⟩ := ih (j + 1)
        refine ⟨n + 1, by simpa using hn, ?_⟩
        rw [List.take_succ_cons, deltasFor_cons, if_neg hct,
          deltasFor_cons, if_neg hct, heq]

end LeakCheck

/-! ## The claims -/

namespace LeakCheck

/-- Claim C1: for every sequence of `record` calls whose increments are all
`+1` or `-1` (in particular for every sequence respecting the one-`+1`-then-
one-`-1`-per-instance contract), the final `live` counter of a type equals
the number of its `+1` calls minus the number of its `-1` calls, and its
`totalCreated` counter equals the number of its `+1` calls, independent of
the interleaving with `-1` calls and with calls of other types. -/
theorem live_and_total_from_counts (calls : List (String × Int)) (t : String)
    (h : ∀ d ∈ deltasFor calls t, d = 1 ∨ d = -1) :
    (findEntry (runCalls calls) t).count
        = ((deltasFor calls t).count 1 : Int) - ((deltasFor calls t).count (-1) : Int) ∧
      (findEntry (runCalls calls) t).total = ((deltasFor calls t).count 1 : Int) := by
  rw [findEntry_runCalls]
  constructor
  · rw [foldl_stepEntry_count, sum_of_pm_ones _ h]
    simp [Entry.init]
  · rw [foldl_stepEntry_total _ _ h]
    simp [Entry.init]

/-- Witness for C1: the spec scenario `record(A,+1), record(A,+1),
record(A,-1)` gives `live = 2 - 1` and `totalCreated = 2`. -/
theorem live_and_total_from_counts_witness :
    (∀ d ∈ deltasFor [("A", 1), ("A", 1), ("A", -1)] "A", d = 1 ∨ d = -1) ∧
      ((findEntry (runCalls [("A", 1), ("A", 1), ("A", -1)]) "A").count
          = ((deltasFor [("A", 1), ("A", 1), ("A", -1)] "A").count 1 : Int)
            - ((deltasFor [("A", 1), ("A", 1), ("A", -1)] "A").count (-1) : Int) ∧
        (findEntry (runCalls [("A", 1), ("A", 1), ("A", -1)]) "A").total
          = ((deltasFor [("A", 1), ("A", 1), ("A", -1)] "A").count 1 : Int)) :=
  ⟨by decide, live_and_total_from_counts [("A", 1), ("A", 1), ("A", -1)] "A" (by decide)⟩

/-- Claim C10: `record` is frame-isolated across types: a call for type `t`
leaves the stored entry of every other type unchanged (both presence and
counter values) and removes no entry from the mapping. -/
theorem record_frame_isolated (s : Registry) (t : String) (d : Int) (t2 : String)
    (h : t2 ≠ t) :
    lookupEntry (update s t d) t2 = lookupEntry s t2 ∧
      ∀ k e, lookupEntry s k = some e → ∃ e2, lookupEntry (update s t d) k = some e2 := by
  constructor
  · rw [update_eq]
    exact lookupEntry_setEntry_ne _ _ _ _ h
  · intro k e hk
    by_cases hkt : k = t
    · subst hkt
      exact ⟨_, by rw [update_eq, lookupEntry_setEntry_self]⟩
    · exact ⟨e, by rw [update_eq, lookupEntry_setEntry_ne _ _ _ _ hkt]; exact hk⟩

/-- Witness for C10: a `record("B", +1)` call leaves the entry of `"A"`
unchanged in a registry that tracks `"A"`. -/
theorem record_frame_isolated_witness :
    ("A" : String) ≠ "B" ∧
      (lookupEntry (update [("A", ⟨1, 1, 1⟩)] "B" 1) "A" = lookupEntry [("A", ⟨1, 1, 1⟩)] "A" ∧
        ∀ k e, lookupEntry [("A", ⟨1, 1, 1⟩)] k = some e →
          ∃ e2, lookupEntry (update [("A", ⟨1, 1, 1⟩)] "B" 1) k = some e2) :=
  ⟨by decide, record_frame_isolated [("A", ⟨1, 1, 1⟩)] "B" 1 "A" (by decide)⟩

/-- Claim C6: the per-type invariants `peak ≥ live`, `totalCreated ≥ live`
and monotone `totalCreated` hold in the default-initialized entry, are
preserved by every `record` step with increment `+1` or `-1`, and hence hold
for every type in every registry state reachable by such calls. -/
theorem counters_invariants (e : Entry) (d : Int) (calls : List (String × Int)) (t : String)
    (hd : d = 1 ∨ d = -1) (he : EntryInv e)
    (hc : ∀ c ∈ calls, c.2 = 1 ∨ c.2 = -1) :
    EntryInv Entry.init ∧
      (EntryInv (stepEntry e d) ∧ e.total ≤ (stepEntry e d).total) ∧
      EntryInv (findEntry (runCalls calls) t) := by
  refine ⟨entryInv_init, ⟨entryInv_step e d hd he, ?_⟩, ?_⟩
  · rw [stepEntry_total]
    rcases hd with rfl | rfl <;> simp
  · rw [findEntry_runCalls]
    exact entryInv_foldl _ _ (deltasFor_pm calls t hc) entryInv_init

/-- Witness for C6 at the entry `(live, peak, total) = (1, 2, 3)`, an
increment step, and the call sequence `record(A,+1), record(A,-1)`. -/
theorem counters_invariants_witness :
    ((1 : Int) = 1 ∨ (1 : Int) = -1) ∧ EntryInv ⟨1, 2, 3⟩ ∧
      (∀ c ∈ ([("A", 1), ("A", -1)] : List (String × Int)), c.2 = 1 ∨ c.2 = -1) ∧
      (EntryInv Entry.init ∧
        (EntryInv (stepEntry ⟨1, 2, 3⟩ 1) ∧ (⟨1, 2, 3⟩ : Entry).total ≤ (stepEntry ⟨1, 2, 3⟩ 1).total) ∧
        EntryInv (findEntry (runCalls [("A", 1), ("A", -1)]) "A")) :=
  ⟨Or.inl rfl, ⟨by simp, by simp⟩, by decide,
    counters_invariants ⟨1, 2, 3⟩ 1 [("A", 1), ("A", -1)] "A" (Or.inl rfl) ⟨by simp, by simp⟩
      (by decide)⟩

/-- Claim C3: `has_leaks` returns `true` iff some tracked entry has a
positive `live` count and, on states satisfying the `live ≥ 0` data-model
invariant, returns `false` iff every tracked entry has `live = 0`. -/
theorem has_leaks_iff_no_live (s : Registry) :
    (has_leaks s = true ↔ ∃ kv ∈ s, 0 < kv.2.count) ∧
      ((∀ kv ∈ s, 0 ≤ kv.2.count) →
        (has_leaks s = false ↔ ∀ kv ∈ s, kv.2.count = 0)) := by
  constructor
  · simp [has_leaks, List.any_eq_true]
  · intro h
    rw [← Bool.not_eq_true, has_leaks]
    simp only [List.any_eq_true, decide_eq_true_eq, not_exists, not_and, not_lt]
    constructor
    · intro h2 kv hkv
      exact le_antisymm (h2 kv hkv) (h kv hkv)
    · intro h2 kv hkv
      rw [h2 kv hkv]

/-- Witness for C3 on a registry with one live `"A"` and one fully destroyed
`"B"`. -/
theorem has_leaks_iff_no_live_witness :
    (has_leaks [("A", ⟨1, 1, 1⟩), ("B", ⟨0, 2, 2⟩)] = true ↔
        ∃ kv ∈ ([("A", ⟨1, 1, 1⟩), ("B", ⟨0, 2, 2⟩)] : Registry), 0 < kv.2.count) ∧
      ((∀ kv ∈ ([("A", ⟨1, 1, 1⟩), ("B", ⟨0, 2, 2⟩)] : Registry), 0 ≤ kv.2.count) →
        (has_leaks [("A", ⟨1, 1, 1⟩), ("B", ⟨0, 2, 2⟩)] = false ↔
          ∀ kv ∈ ([("A", ⟨1, 1, 1⟩), ("B", ⟨0, 2, 2⟩)] : Registry), kv.2.count = 0)) :=
  has_leaks_iff_no_live [("A", ⟨1, 1, 1⟩), ("B", ⟨0, 2, 2⟩)]

end LeakCheck

namespace LeakCheck

/-- Claim C2: for every sequence of `record` calls, the `max` (peak) counter
of a type equals the maximum value its `count` (live) attained after any
prefix of the sequence — it bounds every prefix value and is attained by
one — with peak `0` for the empty sequence; moreover a decrement applied at
any reachable state never changes the peak, and an increment updates it
exactly when the new live count exceeds the prior peak. -/
theorem peak_is_max_live (calls : List (String × Int)) (t : String) :
    (∀ n, (findEntry (runCalls (calls.take n)) t).count ≤ (findEntry (runCalls calls) t).max) ∧
      (∃ n, n ≤ calls.length ∧
        (findEntry (runCalls (calls.take n)) t).count = (findEntry (runCalls calls) t).max) ∧
      (calls = [] → (findEntry (runCalls calls) t).max = 0) ∧
      (∀ n, (findEntry (update (runCalls (calls.take n)) t (-1)) t).max
          = (findEntry (runCalls (calls.take n)) t).max) ∧
      (∀ s : Registry, (findEntry (update s t 1) t).max
          = if (findEntry s t).max < (findEntry s t).count + 1 then (findEntry s t).count + 1
            else (findEntry s t).max) := by
  have hcount : ∀ cs : List (String × Int),
      (findEntry (runCalls cs) t).count = (deltasFor cs t).sum := by
    intro cs
    rw [findEntry_runCalls, foldl_stepEntry_count]
    simp [Entry.init]
  have hpeak : (findEntry (runCalls calls) t).max = runningMax 0 0 (deltasFor calls t) := by
    rw [findEntry_runCalls, foldl_stepEntry_max]
    simp [Entry.init]
  refine ⟨?_, ?_, ?_, ?_, ?_⟩
  · intro n
    obtain ⟨m, _, heq⟩ := deltasFor_take calls t n
    rw [hcount, hpeak, heq]
    simpa using runningMax_ge_prefix (deltasFor calls t) 0 0 (le_refl 0) m
  · rcases runningMax_attained (deltasFor calls t) 0 0 with h | ⟨m, _, hmlen, hval⟩
    · refine ⟨0, Nat.zero_le _, ?_⟩
      rw [hcount, hpeak, h]
      simp [deltasFor_nil]
    · obtain ⟨n, hn, hproj⟩ := take_deltasFor calls t m
      refine ⟨n, hn, ?_⟩
      rw [hcount, hpeak, hval, hproj]
      simp
  · intro h
    subst h
    simp [runCalls, runFrom, findEntry, lookupEntry, Entry.init]
  · intro n
    have hinv : (findEntry (runCalls (calls.take n)) t).count
        ≤ (findEntry (runCalls (calls.take n)) t).max := by
      rw [findEntry_runCalls]
      exact foldl_stepEntry_count_le_max _ _ (by simp [Entry.init])
    rw [findEntry_update_self, stepEntry_max]
    exact max_eq_left (by omega)
  · intro s
    rw [findEntry_update_self, stepEntry_max]
    by_cases h : (findEntry s t).max < (findEntry s t).count + 1
    · rw [if_pos h, max_eq_right (le_of_lt h)]
    · rw [if_neg h, max_eq_left (by omega)]

/-- Claim C4: on a key-sorted registry state (the invariant `std::map`
maintains), `print_leaks` reports exactly the `(type, count)` pairs of the
entries with `count > 0`, in strictly increasing (lexicographic) key order,
together with a grand total equal to the sum of `count` over exactly those
entries. -/
theorem print_leaks_correct (s : Registry) (h : SortedKeys s) :
    (print_leaks s).1
        = (s.filter (fun kv => kv.2.count > 0)).map (fun kv => (kv.1, kv.2.count)) ∧
      List.Pairwise (fun a b => a.1 < b.1) (print_leaks s).1 ∧
      (print_leaks s).2
        = ((s.filter (fun kv => kv.2.count > 0)).map (fun kv => kv.2.count)).sum := by
  have hspec := print_leaks_spec s
  refine ⟨by rw [hspec], ?_, by rw [hspec]⟩
  rw [hspec]
  have h1 : List.Pairwise (fun a b => a.1 < b.1) (s.filter (fun kv => kv.2.count > 0)) :=
    List.Pairwise.filter _ h
  rw [List.pairwise_map]
  exact h1

/-- Witness for C4 on the one-entry sorted registry with a leaked `"A"`. -/
theorem print_leaks_correct_witness :
    SortedKeys [("A", ⟨1, 2, 2⟩)] ∧
      ((print_leaks [("A", ⟨1, 2, 2⟩)]).1
          = (([("A", ⟨1, 2, 2⟩)] : Registry).filter
              (fun kv => kv.2.count > 0)).map (fun kv => (kv.1, kv.2.count)) ∧
        List.Pairwise (fun a b => a.1 < b.1) (print_leaks [("A", ⟨1, 2, 2⟩)]).1 ∧
        (print_leaks [("A", ⟨1, 2, 2⟩)]).2
          = ((([("A", ⟨1, 2, 2⟩)] : Registry).filter
              (fun kv => kv.2.count > 0)).map (fun kv => kv.2.count)).sum) :=
  ⟨by simp [SortedKeys], print_leaks_correct [("A", ⟨1, 2, 2⟩)] (by simp [SortedKeys])⟩

/-- Claim C5 counterexample: `instance_count` is not read-only on the key
set: called on the empty registry for a type never recorded, it
default-inserts an entry (`s_stats[...]` is `std::map::operator[]`), so the
mapping changes. -/
theorem instance_count_not_readonly :
    (instance_count [] "A").2 ≠ ([] : Registry) := by decide

/-- Claim C5 (amended): `instance_count` returns the current `count` of the
type (`0` if never seen) and leaves the entry observed for every type — in
particular every counter value — unchanged; it removes or modifies no entry,
but for a type absent from the mapping it inserts the default-initialized
(all-zero) entry; for a present type the mapping is untouched.  (`has_leaks`
is modelled as a pure function of the state: it reads the mapping and
changes nothing.) -/
theorem queries_readonly_amended (s : Registry) (t t2 : String) :
    (instance_count s t).1 = (findEntry s t).count ∧
      findEntry (instance_count s t).2 t2 = findEntry s t2 ∧
      (instance_count s t).2
        = if lookupEntry s t = none then setEntry s t Entry.init else s := by
  refine ⟨instance_count_val s t, findEntry_instance_count s t t2, ?_⟩
  by_cases h : lookupEntry s t = none
  · rw [if_pos h]
    exact instance_count_state_absent s t h
  · rw [if_neg h]
    exact instance_count_state_present s t h

/-- Claim C8 counterexample: queries are not idempotent under arbitrary
interleaving: an `instance_count` call for a type not yet tracked inserts a
default entry, so a subsequent `print_stats` reports one more row than an
identical `print_stats` issued before it. -/
theorem stats_changed_by_instance_count :
    print_stats ((instance_count [] "A").2) ≠ print_stats [] := by decide

/-- Claim C8 (amended): with no intervening `record` calls, repeated queries
agree — `instance_count` returns the same value regardless of interleaved
`instance_count` calls, and `has_leaks` is unchanged by them — and
`print_stats` is idempotent up to lazy insertion: after `instance_count` for
type `t`, every `print_stats` row is either a row of the previous output or
the freshly inserted all-zero row `(t, 0, 0, 0)`.  (`has_leaks` and
`print_stats` are pure functions of the state, so repeating them with no
state change trivially returns identical results.) -/
theorem queries_idempotent_amended (s : Registry) (t t2 : String) :
    (instance_count ((instance_count s t).2) t2).1 = (instance_count s t2).1 ∧
      has_leaks ((instance_count s t).2) = has_leaks s ∧
      ∀ row ∈ print_stats ((instance_count s t).2),
        row ∈ print_stats s ∨ row = (t, 0, 0, 0) := by
  refine ⟨?_, ?_, ?_⟩
  · rw [instance_count_val, instance_count_val, findEntry_instance_count]
  · cases h : lookupEntry s t with
    | some e => rw [instance_count_state_present s t (by simp [h])]
    | none =>
      rw [instance_count_state_absent s t h, has_leaks, has_leaks,
        any_setEntry_absent s t Entry.init _ h]
      simp [Entry.init]
  · intro row hrow
    cases h : lookupEntry s t with
    | some e =>
      rw [instance_count_state_present s t (by simp [h])] at hrow
      exact Or.inl hrow
    | none =>
      rw [instance_count_state_absent s t h, print_stats] at hrow
      obtain ⟨kv, hkv, rfl⟩ := List.mem_map.mp hrow
      rcases mem_setEntry hkv with h2 | h2
      · subst h2
        exact Or.inr (by simp [Entry.init])
      · exact Or.inl (by rw [print_stats]; exact List.mem_map.mpr ⟨kv, h2, rfl⟩)

/-- Claim C9 counterexample: not every query acquires the process-wide
mutex: the body of `has_leaks` (leakcheck.cpp:76-87) iterates `s_stats`
without constructing a `lock_guard`, so its map access happens with the lock
not held. -/
theorem has_leaks_unlocked : lockProtected hasLeaksTrace = false := by decide

/-- Claim C9 (amended): `update`, `print_leaks`, `print_stats` and
`instance_count` each hold the single process-wide mutex for the duration of
their access to the counter mapping — those operations are serialized with
one another — but `has_leaks` reads the mapping without acquiring the
mutex. -/
theorem lock_discipline_amended :
    lockProtected updateTrace = true ∧ lockProtected printLeaksTrace = true ∧
      lockProtected printStatsTrace = true ∧ lockProtected instanceCountTrace = true ∧
      lockProtected hasLeaksTrace = false := by decide

end LeakCheck

namespace LeakCheck

/-- If the live count of every type stays nonnegative along the run, both
asserts of `update` hold at every call of the sequence. -/
theorem assertsOk_of_nonneg (calls : List (String × Int)) (s : Registry)
    (hpm : ∀ c ∈ calls, c.2 = 1 ∨ c.2 = -1)
    (hpre : ∀ t n, 0 ≤ (findEntry s t).count + (deltasFor (calls.take n) t).sum) :
    assertsOk s calls := by
  induction calls generalizing s with
  | nil => trivial
  | cons c rest ih =>
    refine ⟨⟨hpm c (by simp), ?_⟩, ?_⟩
    · have h1 := hpre c.1 1
      rw [List.take_succ_cons, List.take_zero, deltasFor_cons, if_pos rfl,
        deltasFor_nil] at h1
      simpa using h1
    · refine ih (update s c.1 c.2) (fun x hx => hpm x (by simp [hx])) ?_
      intro t n
      have h1 := hpre t (n + 1)
      rw [List.take_succ_cons, deltasFor_cons] at h1
      by_cases hct : c.1 = t
      · rw [if_pos hct] at h1
        rw [← hct, findEntry_update_self, stepEntry_count, hct]
        simp only [List.sum_cons] at h1
        omega
      · rw [if_neg hct] at h1
        rw [findEntry_update_ne s c.1 t c.2 (fun hh => hct hh.symm)]
        exact h1

/-- Claim C7: if every increment of the sequence is `+1` or `-1` and, for
every type occurring in the sequence, no prefix contains more `-1` calls for
that type than `+1` calls, then `live ≥ 0` holds for every type after every
prefix, and both asserts of `update` (increment is `±1`, and `count ≥ 0`
after the addition) hold at every call of the sequence. -/
theorem asserts_never_fail (calls : List (String × Int))
    (hpm : ∀ c ∈ calls, c.2 = 1 ∨ c.2 = -1)
    (hpre : ∀ t ∈ calls.map Prod.fst, ∀ n, n ≤ calls.length →
      ((deltasFor (calls.take n) t).count (-1) : Int)
        ≤ ((deltasFor (calls.take n) t).count 1 : Int)) :
    assertsOk [] calls ∧
      ∀ t n, 0 ≤ (findEntry (runCalls (calls.take n)) t).count := by
  have hsum : ∀ t n, 0 ≤ (deltasFor (calls.take n) t).sum := by
    intro t n
    by_cases hmem : t ∈ calls.map Prod.fst
    · have hn2 : deltasFor (calls.take n) t = deltasFor (calls.take (min n calls.length)) t := by
        rcases le_or_lt n calls.length with h | h
        · rw [min_eq_left h]
        · rw [min_eq_right (le_of_lt h), List.take_of_length_le (le_of_lt h),
            List.take_length]
      have hpm2 : ∀ d ∈ deltasFor (calls.take (min n calls.length)) t, d = 1 ∨ d = -1 :=
        deltasFor_pm _ _ (fun c hc => hpm c (List.mem_of_mem_take hc))
      rw [hn2, sum_of_pm_ones _ hpm2]
      have h3 := hpre t hmem (min n calls.length) (min_le_right _ _)
      omega
    · rw [deltasFor_eq_nil_of_not_mem]
      · simp
      · intro hmem2
        refine hmem ?_
        obtain ⟨c, hc, rfl⟩ := List.mem_map.mp hmem2
        exact List.mem_map.mpr ⟨c, List.mem_of_mem_take hc, rfl⟩
  constructor
  · refine assertsOk_of_nonneg calls [] hpm ?_
    intro t n
    simpa [findEntry, lookupEntry, Entry.init] using hsum t n
  · intro t n
    rw [findEntry_runCalls, foldl_stepEntry_count]
    simpa [Entry.init] using hsum t n

/-- Witness for C7: the sequence `record(A,+1), record(A,-1)` respects the
contract, so its asserts hold and `live` stays nonnegative. -/
theorem asserts_never_fail_witness :
    ((∀ c ∈ ([("A", 1), ("A", -1)] : List (String × Int)), c.2 = 1 ∨ c.2 = -1) ∧
      (∀ t ∈ ([("A", 1), ("A", -1)] : List (String × Int)).map Prod.fst,
        ∀ n, n ≤ ([("A", 1), ("A", -1)] : List (String × Int)).length →
          ((deltasFor (([("A", 1), ("A", -1)] : List (String × Int)).take n) t).count (-1) : Int)
            ≤ ((deltasFor (([("A", 1), ("A", -1)] : List (String × Int)).take n) t).count 1 : Int))) ∧
      (assertsOk [] [("A", 1), ("A", -1)] ∧
        ∀ t n, 0 ≤ (findEntry (runCalls (([("A", 1), ("A", -1)] : List (String × Int)).take n)) t).count) :=
  ⟨⟨by decide, by decide⟩, asserts_never_fail [("A", 1), ("A", -1)] (by decide) (by decide)⟩

end LeakCheck

namespace LeakCheck

/-- Witness for C2 at the sequence `record(A,+1), record(A,-1)`. -/
theorem peak_is_max_live_witness :
    (∀ n, (findEntry (runCalls (([("A", 1), ("A", -1)] : List (String × Int)).take n)) "A").count
        ≤ (findEntry (runCalls [("A", 1), ("A", -1)]) "A").max) ∧
      (∃ n, n ≤ ([("A", 1), ("A", -1)] : List (String × Int)).length ∧
        (findEntry (runCalls (([("A", 1), ("A", -1)] : List (String × Int)).take n)) "A").count
          = (findEntry (runCalls [("A", 1), ("A", -1)]) "A").max) ∧
      (([("A", 1), ("A", -1)] : List (String × Int)) = [] →
        (findEntry (runCalls [("A", 1), ("A", -1)]) "A").max = 0) ∧
      (∀ n, (findEntry (update (runCalls (([("A", 1), ("A", -1)] : List (String × Int)).take n)) "A" (-1)) "A").max
          = (findEntry (runCalls (([("A", 1), ("A", -1)] : List (String × Int)).take n)) "A").max) ∧
      (∀ s : Registry, (findEntry (update s "A" 1) "A").max
          = if (findEntry s "A").max < (findEntry s "A").count + 1 then (findEntry s "A").count + 1
            else (findEntry s "A").max) :=
  peak_is_max_live [("A", 1), ("A", -1)] "A"

/-- Witness for amended C5 on the empty registry and a never-seen type. -/
theorem queries_readonly_amended_witness :
    (instance_count [] "A").1 = (findEntry [] "A").count ∧
      findEntry (instance_count [] "A").2 "B" = findEntry [] "B" ∧
      (instance_count [] "A").2
        = if lookupEntry [] "A" = none then setEntry [] "A" Entry.init else [] :=
  queries_readonly_amended [] "A" "B"

/-- Witness for amended C8 on the empty registry and a never-seen type. -/
theorem queries_idempotent_amended_witness :
    (instance_count ((instance_count [] "A").2) "B").1 = (instance_count [] "B").1 ∧
      has_leaks ((instance_count [] "A").2) = has_leaks [] ∧
      ∀ row ∈ print_stats ((instance_count [] "A").2),
        row ∈ print_stats ([] : Registry) ∨ row = ("A", 0, 0, 0) :=
  queries_idempotent_amended [] "A" "B"

end LeakCheck
